import Mathlib

/-!
Verification of the bookmark-management core of the visual-bookmarks
browser extension (src/js/bookmarks.js), shallowly embedded in Lean.

The embedding covers:
* the bookmark-tree flattener (`traverseBookmarksTree`,
  `collectBookmarksFromFolder`, and the folder sort in
  `loadChromeBookmarks`), and
* the ordered favorites list with its four mutators
  (`toggleFavorite`, `addToFavorites`, `removeFromFavorites`,
  `reorderFavorite`) and the full-list persistence step
  (`saveFavorites`).

JavaScript truthiness of strings (empty string is falsy) and of the
`children` array (any array, even empty, is truthy) is modelled
explicitly.
-/

namespace VisualBookmarks

/-- A flattened bookmark record `{id, title, url, parentId}` as pushed by
`traverseBookmarksTree` / `collectBookmarksFromFolder`. -/
structure FlatBookmark where
  id : String
  title : String
  url : String
  parentId : Option String
deriving DecidableEq, Repr

/-- A flattened folder record `{id, title, children, parentId}` as pushed by
`traverseBookmarksTree`. -/
structure FlatFolder where
  id : String
  title : String
  children : List FlatBookmark
  parentId : Option String
deriving DecidableEq, Repr

/-- A node of the host bookmark tree: `id`, `title`, optional `url`,
optional `parentId`, and an optional `children` array (present iff the
host considers the node a folder; may be present and empty). -/
inductive BookmarkNode where
  | mk (id : String) (title : String) (url : Option String)
      (parentId : Option String) (children : Option (List BookmarkNode))

def BookmarkNode.id : BookmarkNode → String
  | .mk i _ _ _ _ => i

def BookmarkNode.title : BookmarkNode → String
  | .mk _ t _ _ _ => t

def BookmarkNode.url : BookmarkNode → Option String
  | .mk _ _ u _ _ => u

def BookmarkNode.parentId : BookmarkNode → Option String
  | .mk _ _ _ p _ => p

def BookmarkNode.children : BookmarkNode → Option (List BookmarkNode)
  | .mk _ _ _ _ c => c

/-- JavaScript truthiness of an optional string field: absent and the
empty string are falsy. -/
def truthyStr : Option String → Bool
  | none => false
  | some s => !s.isEmpty

/-- The three reserved host root-container ids, `['0', '1', '2']` in
`traverseBookmarksTree`. -/
def reservedRootIds : List String := ["0", "1", "2"]

/-- The flat record extracted from a tree node
(`{id: node.id, title: node.title, url: node.url, parentId: node.parentId}`). -/
def flatOfNode : BookmarkNode → FlatBookmark
  | .mk i t u p _ => ⟨i, t, u.getD "", p⟩

/-- `BookmarkManager.collectBookmarksFromFolder`: recursively collect the
bookmarks below a folder, in encounter (pre-)order.  Each child with a
truthy `url` is pushed; otherwise a child with a `children` array is
recursed into. -/
def collectBookmarksFromFolder : List BookmarkNode → List FlatBookmark
  | [] => []
  | .mk i t u p none :: rest =>
      (if truthyStr u then [⟨i, t, u.getD "", p⟩] else [])
        ++ collectBookmarksFromFolder rest
  | .mk i t u p (some cs) :: rest =>
      (if truthyStr u then [⟨i, t, u.getD "", p⟩]
       else collectBookmarksFromFolder cs)
        ++ collectBookmarksFromFolder rest

/-- `BookmarkManager.traverseBookmarksTree`: walk the node list; a node
with a `children` array is a folder (emitted when its title is truthy and
its id is not reserved, then recursed into); otherwise a node with a
truthy `url` is pushed to the flat bookmark list.  Returns the pair
(chromeBookmarks, folders) accumulated in order. -/
def traverseBookmarksTree : List BookmarkNode → List FlatBookmark × List FlatFolder
  | [] => ([], [])
  | .mk i t _u p (some cs) :: rest =>
      let emitted : List FlatFolder :=
        if !t.isEmpty && !(reservedRootIds.contains i) then
          [⟨i, t, collectBookmarksFromFolder cs, p⟩]
        else []
      let sub := traverseBookmarksTree cs
      let rst := traverseBookmarksTree rest
      (sub.1 ++ rst.1, emitted ++ sub.2 ++ rst.2)
  | .mk i t u p none :: rest =>
      let rst := traverseBookmarksTree rest
      ((if truthyStr u then [⟨i, t, u.getD "", p⟩] else []) ++ rst.1, rst.2)

/-- Spec-side characterisation (§3, §8 of the design document): the list of
leaf nodes — nodes with a (truthy) url and no children array — of a forest,
in depth-first pre-order. -/
def specPreorderLeaves : List BookmarkNode → List BookmarkNode
  | [] => []
  | .mk i t u p none :: rest =>
      (if truthyStr u then [.mk i t u p none] else []) ++ specPreorderLeaves rest
  | .mk _ _ _ _ (some cs) :: rest =>
      specPreorderLeaves cs ++ specPreorderLeaves rest

/-- Spec-side well-formedness of the host tree (§3 data model: `url` is
present iff the node is a leaf bookmark): no node anywhere carries both a
truthy `url` and a `children` array. -/
def nodesWellFormed : List BookmarkNode → Bool
  | [] => true
  | .mk _ _ _ _ none :: rest => nodesWellFormed rest
  | .mk _ _ u _ (some cs) :: rest =>
      !truthyStr u && (nodesWellFormed cs && nodesWellFormed rest)

/-- Spec-side characterisation (§3, §4.1): the emitted folders of a forest in
pre-order, each carrying as `children` exactly its leaf descendants (at any
depth) in pre-order. -/
def specFlattenFolders : List BookmarkNode → List FlatFolder
  | [] => []
  | .mk _ _ _ _ none :: rest => specFlattenFolders rest
  | .mk i t _ p (some cs) :: rest =>
      (if !t.isEmpty && !(reservedRootIds.contains i) then
        [⟨i, t, (specPreorderLeaves cs).map flatOfNode, p⟩]
      else [])
        ++ specFlattenFolders cs ++ specFlattenFolders rest

/-- The folder sort applied at the end of `loadChromeBookmarks`:
`this.folders.sort((a, b) => a.title.localeCompare(b.title))`.
`lc a b` stands for `a.localeCompare(b) <= 0`; the host's sort is stable
(ECMAScript requirement), modelled by a stable merge sort. -/
def sortFoldersByTitle (lc : String → String → Bool) (folders : List FlatFolder) :
    List FlatFolder :=
  folders.mergeSort (fun a b => lc a.title b.title)

/-- `BookmarkManager.loadChromeBookmarks` after a successful tree fetch:
reset both lists, traverse the tree, then sort the folders by title. -/
def loadChromeBookmarks (lc : String → String → Bool) (tree : List BookmarkNode) :
    List FlatBookmark × List FlatFolder :=
  let r := traverseBookmarksTree tree
  (r.1, sortFoldersByTitle lc r.2)

/-- The favorites-related state of a `BookmarkManager` instance:
the flattened bookmark list, the in-memory favorites array, and the
`favoriteBookmarks` blob held by `chrome.storage.local`. -/
structure BMState where
  chromeBookmarks : List FlatBookmark
  favorites : List FlatBookmark
  store : List FlatBookmark
deriving DecidableEq, Repr

/-- `BookmarkManager.saveFavorites`: writes the whole `favorites` array to
the persisted store. -/
def saveFavorites (s : BMState) : BMState :=
  { s with store := s.favorites }

/-- `BookmarkManager.isFavorite`. -/
def isFavorite (s : BMState) (bookmarkId : String) : Bool :=
  s.favorites.any (fun fav => fav.id == bookmarkId)

/-- `BookmarkManager.toggleFavorite`: no-op when the id is not in
`chromeBookmarks`; otherwise remove the first favorite with that id, or
append the found bookmark, then save. -/
def toggleFavorite (s : BMState) (bookmarkId : String) : BMState :=
  match s.chromeBookmarks.find? (fun b => b.id == bookmarkId) with
  | none => s
  | some bookmark =>
    match s.favorites.findIdx? (fun b => b.id == bookmarkId) with
    | some favoriteIndex =>
        saveFavorites { s with favorites := s.favorites.eraseIdx favoriteIndex }
    | none =>
        saveFavorites { s with favorites := s.favorites ++ [bookmark] }

/-- `BookmarkManager.addToFavorites`: append the bookmark and save unless a
favorite with the same id already exists. -/
def addToFavorites (s : BMState) (bookmark : FlatBookmark) : BMState :=
  if s.favorites.any (fun fav => fav.id == bookmark.id) then s
  else saveFavorites { s with favorites := s.favorites ++ [bookmark] }

/-- `BookmarkManager.removeFromFavorites`: remove the first favorite with
the given id and save; no-op when absent. -/
def removeFromFavorites (s : BMState) (bookmarkId : String) : BMState :=
  match s.favorites.findIdx? (fun b => b.id == bookmarkId) with
  | some index => saveFavorites { s with favorites := s.favorites.eraseIdx index }
  | none => s

/-- `BookmarkManager.reorderFavorite`: look up both indices; no-op when
either id is absent; otherwise splice the dragged entry out and splice it
back in at the target's pre-removal index, then save. -/
def reorderFavorite (s : BMState) (draggedId targetId : String) : BMState :=
  match s.favorites.findIdx? (fun b => b.id == draggedId),
        s.favorites.findIdx? (fun b => b.id == targetId) with
  | some draggedIndex, some targetIndex =>
      match s.favorites[draggedIndex]? with
      | some draggedItem =>
          saveFavorites { s with favorites :=
            (s.favorites.eraseIdx draggedIndex).insertIdx targetIndex draggedItem }
      | none => s
  | _, _ => s

/-- The four favorites mutators, as one operation type. -/
inductive FavOp where
  | toggle (bookmarkId : String)
  | add (bookmark : FlatBookmark)
  | remove (bookmarkId : String)
  | reorder (draggedId targetId : String)
deriving DecidableEq, Repr

/-- Dispatch a favorites mutator on the state. -/
def applyFavOp (s : BMState) : FavOp → BMState
  | .toggle bookmarkId => toggleFavorite s bookmarkId
  | .add bookmark => addToFavorites s bookmark
  | .remove bookmarkId => removeFromFavorites s bookmarkId
  | .reorder draggedId targetId => reorderFavorite s draggedId targetId

/-! ### General list helper lemmas -/

theorem cons_eraseIdx_perm {α : Type} :
    ∀ (l : List α) (i : Nat) (x : α), l[i]? = some x →
      List.Perm (x :: l.eraseIdx i) l := by
  intro l
  induction l with
  | nil => intro i x h; simp at h
  | cons a t ih =>
    intro i x h
    cases i with
    | zero =>
      simp only [List.getElem?_cons_zero, Option.some.injEq] at h
      subst h
      simp [List.eraseIdx]
    | succ n =>
      simp only [List.getElem?_cons_succ] at h
      have hp := ih n x h
      simp only [List.eraseIdx_cons_succ]
      exact (List.Perm.swap a x (t.eraseIdx n)).trans (hp.cons a)

theorem insertIdx_cons_perm {α : Type} :
    ∀ (l : List α) (n : Nat) (x : α), n ≤ l.length →
      List.Perm (l.insertIdx n x) (x :: l) := by
  intro l
  induction l with
  | nil =>
    intro n x h
    have : n = 0 := Nat.le_zero.mp (by simpa using h)
    subst this
    simp [List.insertIdx_zero]
  | cons a t ih =>
    intro n x h
    cases n with
    | zero => simp [List.insertIdx_zero]
    | succ m =>
      simp only [List.insertIdx_succ_cons]
      have hm : m ≤ t.length := by simpa using h
      exact ((ih m x hm).cons a).trans (List.Perm.swap x a t)

theorem insertIdx_getElem_eraseIdx {α : Type} :
    ∀ (l : List α) (i : Nat) (x : α), l[i]? = some x →
      (l.eraseIdx i).insertIdx i x = l := by
  intro l
  induction l with
  | nil => intro i x h; simp at h
  | cons a t ih =>
    intro i x h
    cases i with
    | zero =>
      simp only [List.getElem?_cons_zero, Option.some.injEq] at h
      subst h
      simp [List.eraseIdx, List.insertIdx_zero]
    | succ n =>
      simp only [List.getElem?_cons_succ] at h
      simp [List.eraseIdx_cons_succ, List.insertIdx_succ_cons, ih n x h]

theorem map_eraseIdx_comm {α β : Type} (f : α → β) :
    ∀ (l : List α) (i : Nat), (l.eraseIdx i).map f = (l.map f).eraseIdx i := by
  intro l
  induction l with
  | nil => intro i; simp
  | cons a t ih =>
    intro i
    cases i with
    | zero => simp [List.eraseIdx]
    | succ n => simp [List.eraseIdx_cons_succ, ih n]

theorem findIdx?_append_singleton {α : Type} (p : α → Bool) :
    ∀ (l : List α) (x : α), (∀ y ∈ l, p y = false) → p x = true →
      (l ++ [x]).findIdx? p = some l.length := by
  intro l
  induction l with
  | nil => intro x _ hx; simp [List.findIdx?_cons, hx]
  | cons a t ih =>
    intro x hall hx
    have ha : p a = false := hall a (List.mem_cons_self a t)
    have ht := ih x (fun y hy => hall y (List.mem_cons_of_mem a hy)) hx
    simp [List.findIdx?_cons, ha, List.findIdx?_succ, ht]

theorem eraseIdx_append_singleton_length {α : Type} :
    ∀ (l : List α) (x : α), (l ++ [x]).eraseIdx l.length = l := by
  intro l
  induction l with
  | nil => intro x; simp [List.eraseIdx]
  | cons a t ih => intro x; simp [List.eraseIdx_cons_succ, ih]

theorem not_mem_eraseIdx_of_nodup {α : Type} (l : List α) (i : Nat) (x : α)
    (h : l[i]? = some x) (hnd : l.Nodup) : x ∉ l.eraseIdx i := by
  have hp := cons_eraseIdx_perm l i x h
  have : (x :: l.eraseIdx i).Nodup := (hp.nodup_iff).mpr hnd
  exact (List.nodup_cons.mp this).1

theorem pairwise_filter_of_all {α : Type} (R : α → α → Prop) (p : α → Bool)
    (h : ∀ a b, p a = true → p b = true → R a b) :
    ∀ l : List α, (l.filter p).Pairwise R := by
  intro l
  induction l with
  | nil => simp
  | cons a t ih =>
    by_cases hp : p a
    · rw [List.filter_cons_of_pos hp]
      refine List.Pairwise.cons ?_ ih
      intro b hb
      exact h a b hp (List.of_mem_filter hb)
    · rw [List.filter_cons_of_neg (by simpa using hp)]
      exact ih

/-! ### Concrete data used to witness the claims -/

/-- Concrete bookmark used in witnesses. -/
def demoX : FlatBookmark := ⟨"x", "Site X", "https://x.example", none⟩

/-- Concrete bookmark used in witnesses. -/
def demoY : FlatBookmark := ⟨"y", "Site Y", "https://y.example", none⟩

/-- Concrete bookmark used in witnesses. -/
def demoZ : FlatBookmark := ⟨"z", "Site Z", "https://z.example", none⟩

/-- Concrete manager state with favorites `[X, Y, Z]`. -/
def demoState : BMState := ⟨[demoX, demoY, demoZ], [demoX, demoY, demoZ], [demoX, demoY, demoZ]⟩

/-! ### Claims -/

/-- C9: `addToFavorites` is idempotent — the second identical call is a
no-op, the length grows by at most one, and the bookmark is appended
exactly when no existing favorite carries the same id. -/
theorem c9_addToFavorites_idempotent (s : BMState) (b : FlatBookmark) :
    addToFavorites (addToFavorites s b) b = addToFavorites s b
    ∧ (addToFavorites s b).favorites.length ≤ s.favorites.length + 1
    ∧ (addToFavorites s b).favorites =
        (if s.favorites.any (fun fav => fav.id == b.id) then s.favorites
         else s.favorites ++ [b]) := by
  by_cases h : s.favorites.any (fun fav => fav.id == b.id)
  · simp [addToFavorites, h]
  · simp [addToFavorites, saveFavorites, h]

/-- C6: every favorites mutator either leaves the state entirely unchanged
or ends with the persisted store holding exactly the full current favorites
list (the full-list write of `saveFavorites`); no partial write exists. -/
theorem c6_full_list_persistence (s : BMState) (op : FavOp) :
    (applyFavOp s op).store = (applyFavOp s op).favorites ∨ applyFavOp s op = s := by
  cases op <;>
    simp only [applyFavOp, toggleFavorite, addToFavorites, removeFromFavorites,
      reorderFavorite] <;>
    (repeat' split) <;> simp [saveFavorites]

/-- C7: `reorderFavorite` with equal ids leaves the favorites list
unchanged; `reorderFavorite` with either id absent from the list is a
complete no-op; `toggleFavorite` with an id unknown to the flattened
bookmark set is a complete no-op.  All three paths return normally
(no error is surfaced). -/
theorem c7_silent_noops (s : BMState) (a b bookmarkId : String)
    (habsent : s.favorites.findIdx? (fun e => e.id == a) = none
      ∨ s.favorites.findIdx? (fun e => e.id == b) = none)
    (hunknown : s.chromeBookmarks.find? (fun e => e.id == bookmarkId) = none) :
    (reorderFavorite s a a).favorites = s.favorites
    ∧ reorderFavorite s a b = s
    ∧ toggleFavorite s bookmarkId = s := by
  refine ⟨?_, ?_, ?_⟩
  · cases hfi : s.favorites.findIdx? (fun e => e.id == a) with
    | none => simp [reorderFavorite, hfi]
    | some i =>
      have hlt : i < s.favorites.length :=
        (List.findIdx?_eq_some_iff_findIdx_eq.mp hfi).1
      have hget : s.favorites[i]? = some (s.favorites[i]) :=
        List.getElem?_eq_getElem hlt
      simp [reorderFavorite, hfi, hget, saveFavorites,
        insertIdx_getElem_eraseIdx s.favorites i _ hget]
  · rcases habsent with h | h
    · simp [reorderFavorite, h]
    · cases hfi : s.favorites.findIdx? (fun e => e.id == a) with
      | none => simp [reorderFavorite, hfi, h]
      | some i => simp [reorderFavorite, hfi, h]
  · simp [toggleFavorite, hunknown]

/-- C7 witness: the no-op behaviours at a concrete state. -/
theorem c7_silent_noops_witness :
    (reorderFavorite demoState "x" "x").favorites = demoState.favorites
    ∧ reorderFavorite demoState "x" "nope" = demoState
    ∧ toggleFavorite demoState "nope" = demoState :=
  c7_silent_noops demoState "x" "nope" "nope" (Or.inr (by decide)) (by decide)

/-- Reading of C1's general rule taken literally: remove the dragged
entry, then insert it at the index the target entry occupies in the list
*after* that removal.  Defined only to compare against the code's
`reorderFavorite`. -/
def reorderFavoriteSpecPostRemoval (s : BMState) (draggedId targetId : String) :
    BMState :=
  match s.favorites.findIdx? (fun b => b.id == draggedId) with
  | none => s
  | some draggedIndex =>
    match s.favorites[draggedIndex]? with
    | none => s
    | some draggedItem =>
      let rest := s.favorites.eraseIdx draggedIndex
      match rest.findIdx? (fun b => b.id == targetId) with
      | none => s
      | some targetIndex =>
          saveFavorites { s with favorites := rest.insertIdx targetIndex draggedItem }

/-- C1 counterexample: on favorites `[X, Y, Z]`, `reorder(X, Z)` in the code
inserts the dragged entry at the target's pre-removal index (result
`[Y, Z, X]`), not at the index the target occupies after the removal
(which would give `[Y, X, Z]`), so the claim's general rule, read
literally, fails. -/
theorem c1_counterexample :
    reorderFavorite demoState "x" "z" ≠ reorderFavoriteSpecPostRemoval demoState "x" "z"
    ∧ (reorderFavorite demoState "x" "z").favorites = [demoY, demoZ, demoX]
    ∧ (reorderFavoriteSpecPostRemoval demoState "x" "z").favorites
        = [demoY, demoX, demoZ] := by
  refine ⟨by decide, by decide, by decide⟩

/-- C1 (amended): on `[X, Y, Z]`, `reorder(X, Z)` produces `[Y, Z, X]`;
in general, when both ids are present, `reorderFavorite` removes the
dragged entry from its current position and inserts it at the index the
target entry occupied at the start of the operation (before the
removal). -/
theorem c1_reorder_semantics :
    (∀ (s : BMState) (X Y Z : FlatBookmark), s.favorites = [X, Y, Z] →
      X.id ≠ Z.id → Y.id ≠ Z.id →
      (reorderFavorite s X.id Z.id).favorites = [Y, Z, X])
    ∧ (∀ (s : BMState) (a b : String) (di ti : Nat) (d : FlatBookmark),
      s.favorites.findIdx? (fun e => e.id == a) = some di →
      s.favorites.findIdx? (fun e => e.id == b) = some ti →
      s.favorites[di]? = some d →
      (reorderFavorite s a b).favorites = (s.favorites.eraseIdx di).insertIdx ti d) := by
  constructor
  · intro s X Y Z hfav hxz hyz
    have hd : s.favorites.findIdx? (fun e => e.id == X.id) = some 0 := by
      simp [hfav, List.findIdx?_cons]
    have ht : s.favorites.findIdx? (fun e => e.id == Z.id) = some 2 := by
      simp [hfav, List.findIdx?_cons, hxz, hyz, List.findIdx?_succ]
    have hg : s.favorites[0]? = some X := by simp [hfav]
    simp only [reorderFavorite, hd, ht, hg]
    simp [saveFavorites, hfav, List.eraseIdx, List.insertIdx_succ_cons,
      List.insertIdx_zero]
  · intro s a b di ti d hd ht hg
    simp [reorderFavorite, hd, ht, hg, saveFavorites]

/-- C1 witness: the amended semantics at the concrete state `[X, Y, Z]`. -/
theorem c1_reorder_semantics_witness :
    (reorderFavorite demoState "x" "z").favorites = [demoY, demoZ, demoX]
    ∧ (reorderFavorite demoState "x" "z").favorites
        = (demoState.favorites.eraseIdx 0).insertIdx 2 demoX :=
  ⟨c1_reorder_semantics.1 demoState demoX demoY demoZ rfl (by decide) (by decide),
   c1_reorder_semantics.2 demoState "x" "z" 0 2 demoX (by decide) (by decide) (by decide)⟩

/-- C10: if no two favorites share an id (and the flattened bookmark set
has unique ids), then after any of the four favorites mutators no two
favorites share an id. -/
theorem c10_favorite_ids_nodup_invariant (s : BMState) (op : FavOp)
    (_hchrome : (s.chromeBookmarks.map FlatBookmark.id).Nodup)
    (hfav : (s.favorites.map FlatBookmark.id).Nodup) :
    ((applyFavOp s op).favorites.map FlatBookmark.id).Nodup := by
  cases op with
  | toggle bookmarkId =>
    cases hfind : s.chromeBookmarks.find? (fun b => b.id == bookmarkId) with
    | none => simpa [applyFavOp, toggleFavorite, hfind] using hfav
    | some cb =>
      have hcbid : cb.id = bookmarkId := by simpa using List.find?_some hfind
      cases hfi : s.favorites.findIdx? (fun b => b.id == bookmarkId) with
      | some i =>
        simp only [applyFavOp, toggleFavorite, hfind, hfi, saveFavorites]
        rw [map_eraseIdx_comm]
        exact hfav.sublist (List.eraseIdx_sublist _ i)
      | none =>
        have hall := List.findIdx?_eq_none_iff.mp hfi
        simp only [applyFavOp, toggleFavorite, hfind, hfi, saveFavorites]
        simp only [List.map_append, List.map_cons, List.map_nil]
        rw [List.nodup_append]
        refine ⟨hfav, List.nodup_singleton _, ?_⟩
        intro x hx hy
        simp only [List.mem_singleton] at hy
        obtain ⟨w, hw, hwx⟩ := List.mem_map.mp hx
        have : (w.id == bookmarkId) = true := by
          simp [hwx, hy, hcbid]
        rw [hall w hw] at this
        exact Bool.false_ne_true this
  | add b =>
    by_cases hex : s.favorites.any (fun fav => fav.id == b.id)
    · simpa [applyFavOp, addToFavorites, hex] using hfav
    · have hall : ∀ x ∈ s.favorites, (x.id == b.id) = false := by
        intro x hx
        by_contra hc
        exact hex (List.any_eq_true.mpr ⟨x, hx, by simpa using hc⟩)
      simp only [applyFavOp, addToFavorites, hex, if_false, saveFavorites,
        Bool.false_eq_true]
      simp only [List.map_append, List.map_cons, List.map_nil]
      rw [List.nodup_append]
      refine ⟨hfav, List.nodup_singleton _, ?_⟩
      intro x hx hy
      simp only [List.mem_singleton] at hy
      obtain ⟨w, hw, hwx⟩ := List.mem_map.mp hx
      have : (w.id == b.id) = true := by simp [hwx, hy]
      rw [hall w hw] at this
      exact Bool.false_ne_true this
  | remove bookmarkId =>
    cases hfi : s.favorites.findIdx? (fun b => b.id == bookmarkId) with
    | none => simpa [applyFavOp, removeFromFavorites, hfi] using hfav
    | some i =>
      simp only [applyFavOp, removeFromFavorites, hfi, saveFavorites]
      rw [map_eraseIdx_comm]
      exact hfav.sublist (List.eraseIdx_sublist _ i)
  | reorder a b =>
    cases hd : s.favorites.findIdx? (fun e => e.id == a) with
    | none => simpa [applyFavOp, reorderFavorite, hd] using hfav
    | some di =>
      cases ht : s.favorites.findIdx? (fun e => e.id == b) with
      | none => simpa [applyFavOp, reorderFavorite, hd, ht] using hfav
      | some ti =>
        have hdlt : di < s.favorites.length :=
          (List.findIdx?_eq_some_iff_findIdx_eq.mp hd).1
        have htlt : ti < s.favorites.length :=
          (List.findIdx?_eq_some_iff_findIdx_eq.mp ht).1
        have hg : s.favorites[di]? = some (s.favorites[di]) :=
          List.getElem?_eq_getElem hdlt
        simp only [applyFavOp, reorderFavorite, hd, ht, hg, saveFavorites]
        have hle : ti ≤ (s.favorites.eraseIdx di).length := by
          rw [List.length_eraseIdx_of_lt hdlt]
          omega
        have hperm :
            List.Perm ((s.favorites.eraseIdx di).insertIdx ti (s.favorites[di]))
              s.favorites :=
          (insertIdx_cons_perm _ ti _ hle).trans (cons_eraseIdx_perm _ di _ hg)
        exact ((hperm.map FlatBookmark.id).nodup_iff).mpr hfav

/-- C10 witness: the invariant applied at a concrete state and operation. -/
theorem c10_favorite_ids_nodup_invariant_witness :
    ((applyFavOp demoState (FavOp.toggle "x")).favorites.map FlatBookmark.id).Nodup :=
  c10_favorite_ids_nodup_invariant demoState (FavOp.toggle "x") (by decide) (by decide)

/-- C5: for an id present in the flattened bookmark set (and a favorites
list with unique ids), toggling twice restores the membership of every id
in the favorites list, and when the id was originally a favorite the
re-added entry sits at the end of the list. -/
theorem c5_toggle_self_inverse (s : BMState) (bookmarkId : String)
    (hknown : s.chromeBookmarks.any (fun b => b.id == bookmarkId) = true)
    (hnodup : (s.favorites.map FlatBookmark.id).Nodup) :
    (∀ q : String,
      isFavorite (toggleFavorite (toggleFavorite s bookmarkId) bookmarkId) q
        = isFavorite s q)
    ∧ (isFavorite s bookmarkId = true →
        ∃ e, (toggleFavorite (toggleFavorite s bookmarkId) bookmarkId).favorites.getLast?
            = some e ∧ e.id = bookmarkId) := by
  cases hfind : s.chromeBookmarks.find? (fun b => b.id == bookmarkId) with
  | none =>
    exfalso
    obtain ⟨x, hx, hpx⟩ := List.any_eq_true.mp hknown
    have := List.find?_eq_none.mp hfind x hx
    exact this hpx
  | some cb =>
    have hcbid : cb.id = bookmarkId := by simpa using List.find?_some hfind
    cases hfi : s.favorites.findIdx? (fun b => b.id == bookmarkId) with
    | some i =>
      obtain ⟨hlt, hpe, _hprev⟩ := List.findIdx?_eq_some_iff_getElem.mp hfi
      have heid : (s.favorites[i]).id = bookmarkId := by simpa using hpe
      have hg : s.favorites[i]? = some (s.favorites[i]) :=
        List.getElem?_eq_getElem hlt
      have hs1 : toggleFavorite s bookmarkId =
          saveFavorites { s with favorites := s.favorites.eraseIdx i } := by
        simp [toggleFavorite, hfind, hfi]
      have hfi2 : (s.favorites.eraseIdx i).findIdx?
          (fun b => b.id == bookmarkId) = none := by
        rw [List.findIdx?_eq_none_iff]
        intro x hx
        by_contra hc
        have hxid : x.id = bookmarkId := by
          revert hc
          cases hb : (x.id == bookmarkId)
          · intro hc; exact absurd rfl hc
          · intro _; simpa using hb
        have hmem : x.id ∈ (s.favorites.eraseIdx i).map FlatBookmark.id :=
          List.mem_map.mpr ⟨x, hx, rfl⟩
        rw [map_eraseIdx_comm] at hmem
        have hgm : (s.favorites.map FlatBookmark.id)[i]? = some bookmarkId := by
          rw [List.getElem?_map, hg]
          simp [heid]
        have hnm := not_mem_eraseIdx_of_nodup _ i _ hgm hnodup
        rw [hxid] at hmem
        exact hnm hmem
      have hs2 : toggleFavorite (toggleFavorite s bookmarkId) bookmarkId =
          saveFavorites { s with favorites := s.favorites.eraseIdx i ++ [cb] } := by
        rw [hs1]
        simp [toggleFavorite, saveFavorites, hfind, hfi2]
      constructor
      · intro q
        rw [hs2]
        simp only [isFavorite, saveFavorites]
        rw [Bool.eq_iff_iff]
        simp only [List.any_eq_true, List.mem_append, List.mem_singleton]
        constructor
        · rintro ⟨x, hx | hx, hpx⟩
          · exact ⟨x, List.eraseIdx_subset _ i hx, hpx⟩
          · subst hx
            refine ⟨s.favorites[i], List.getElem_mem hlt, ?_⟩
            rw [heid, ← hcbid]
            exact hpx
        · rintro ⟨x, hx, hpx⟩
          have hx2 := ((cons_eraseIdx_perm s.favorites i _ hg).mem_iff).mpr hx
          rcases List.mem_cons.mp hx2 with hx3 | hx3
          · refine ⟨cb, Or.inr rfl, ?_⟩
            rw [hcbid, ← heid, ← hx3]
            exact hpx
          · exact ⟨x, Or.inl hx3, hpx⟩
      · intro _
        refine ⟨cb, ?_, hcbid⟩
        rw [hs2]
        simp [saveFavorites, List.getLast?_concat]
    | none =>
      have hall := List.findIdx?_eq_none_iff.mp hfi
      have hs1 : toggleFavorite s bookmarkId =
          saveFavorites { s with favorites := s.favorites ++ [cb] } := by
        simp [toggleFavorite, hfind, hfi]
      have hfi2 : (s.favorites ++ [cb]).findIdx?
          (fun b => b.id == bookmarkId) = some s.favorites.length :=
        findIdx?_append_singleton _ s.favorites cb hall (by simp [hcbid])
      have hs2 : toggleFavorite (toggleFavorite s bookmarkId) bookmarkId =
          saveFavorites { s with favorites := s.favorites } := by
        rw [hs1]
        simp [toggleFavorite, saveFavorites, hfind, hfi2,
          eraseIdx_append_singleton_length]
      constructor
      · intro q
        rw [hs2]
        simp [isFavorite, saveFavorites]
      · intro hmem
        exfalso
        obtain ⟨x, hx, hpx⟩ := List.any_eq_true.mp hmem
        rw [hall x hx] at hpx
        exact Bool.false_ne_true hpx

/-- C5 witness: toggling a favorited id twice at a concrete state keeps
membership and re-appends the entry at the end. -/
theorem c5_toggle_self_inverse_witness :
    (isFavorite (toggleFavorite (toggleFavorite demoState "x") "x") "y"
      = isFavorite demoState "y")
    ∧ ∃ e, (toggleFavorite (toggleFavorite demoState "x") "x").favorites.getLast?
        = some e ∧ e.id = "x" :=
  ⟨(c5_toggle_self_inverse demoState "x" (by decide) (by decide)).1 "y",
   (c5_toggle_self_inverse demoState "x" (by decide) (by decide)).2 (by decide)⟩

/-! ### Tree-flattening claims -/

/-- Helper: on well-formed forests the recursive per-folder collection pass
returns exactly the pre-order leaf descendants. -/
theorem collectBookmarks_eq_map_leaves :
    ∀ cs : List BookmarkNode, nodesWellFormed cs = true →
      collectBookmarksFromFolder cs = (specPreorderLeaves cs).map flatOfNode := by
  intro cs
  induction cs using collectBookmarksFromFolder.induct with
  | case1 => simp [collectBookmarksFromFolder, specPreorderLeaves]
  | case2 i t u p rest ih =>
      intro h
      have hr : nodesWellFormed rest = true := by simpa [nodesWellFormed] using h
      by_cases hu : truthyStr u <;>
        simp [collectBookmarksFromFolder, specPreorderLeaves, ih hr, hu, flatOfNode]
  | case3 i t u p cs rest ih1 ih2 =>
      intro h
      have h3 : truthyStr u = false ∧ nodesWellFormed cs = true
          ∧ nodesWellFormed rest = true := by
        simpa [nodesWellFormed, Bool.and_eq_true, Bool.not_eq_true'] using h
      simp [collectBookmarksFromFolder, specPreorderLeaves, h3.1,
        ih1 h3.2.1, ih2 h3.2.2]

/-- Helper: every folder emitted by the traversal has an unreserved id and a
non-empty title. -/
theorem traverse_folders_not_reserved :
    ∀ ns : List BookmarkNode, ∀ F ∈ (traverseBookmarksTree ns).2,
      F.id ∉ reservedRootIds ∧ F.title ≠ "" := by
  intro ns
  induction ns using traverseBookmarksTree.induct with
  | case1 => simp [traverseBookmarksTree]
  | case2 i t u p cs rest ih1 ih2 =>
      intro F hF
      simp only [traverseBookmarksTree, List.mem_append] at hF
      rcases hF with (hF | hF) | hF
      · by_cases hc : !t.isEmpty && !(reservedRootIds.contains i)
        · rw [if_pos hc] at hF
          simp only [List.mem_singleton] at hF
          subst hF
          have h1 : t.isEmpty = false ∧ i ∉ reservedRootIds := by
            simpa [Bool.and_eq_true, Bool.not_eq_true'] using hc
          constructor
          · simpa using h1.2
          · intro ht
            have h2 := (String.isEmpty_iff t).mpr ht
            rw [h1.1] at h2
            exact Bool.false_ne_true h2
        · rw [if_neg hc] at hF
          simp at hF
      · exact ih1 F hF
      · exact ih2 F hF
  | case3 i t u p rest ih =>
      intro F hF
      simp only [traverseBookmarksTree] at hF
      exact ih F hF

/-- Concrete tree node used in witnesses: a leaf directly under the root. -/
def demoLeafA : BookmarkNode :=
  .mk "10" "Site A" (some "https://a.example") (some "1") none

/-- Concrete tree node used in witnesses: a leaf inside the demo folder. -/
def demoLeafB : BookmarkNode :=
  .mk "11" "Site B" (some "https://b.example") (some "20") none

/-- Concrete tree node used in witnesses: a user folder. -/
def demoWork : BookmarkNode := .mk "20" "Work" none (some "1") (some [demoLeafB])

/-- Concrete tree node used in witnesses: a reserved root container. -/
def demoRoot : BookmarkNode :=
  .mk "1" "Bookmarks Bar" none (some "0") (some [demoLeafA, demoWork])

/-- Concrete forest used in witnesses. -/
def demoForest : List BookmarkNode := [demoRoot]

/-- The flat record of `demoLeafB`. -/
def demoFlatB : FlatBookmark := ⟨"11", "Site B", "https://b.example", some "20"⟩

/-- The flat folder emitted for `demoWork`. -/
def demoWorkFolder : FlatFolder := ⟨"20", "Work", [demoFlatB], some "1"⟩

/-- C2: the flattened bookmark list is exactly the image of the leaf nodes
(nodes with a url and no children array) of the forest, each once, in
depth-first pre-order; in particular it contains no folder node. -/
theorem c2_bookmarks_eq_preorder_leaves :
    ∀ ns : List BookmarkNode,
      (traverseBookmarksTree ns).1 = (specPreorderLeaves ns).map flatOfNode := by
  intro ns
  induction ns using traverseBookmarksTree.induct with
  | case1 => simp [traverseBookmarksTree, specPreorderLeaves]
  | case2 i t u p cs rest ih1 ih2 =>
      simp [traverseBookmarksTree, specPreorderLeaves, ih1, ih2]
  | case3 i t u p rest ih =>
      by_cases hu : truthyStr u <;>
        simp [traverseBookmarksTree, specPreorderLeaves, ih, hu, flatOfNode]

/-- C3: on well-formed forests (`url` only on childless nodes) the emitted
folder list is exactly the spec's: each emitted folder carries as children
all of its leaf descendants, at any depth, in pre-order. -/
theorem c3_folder_children_are_leaf_descendants :
    ∀ ns : List BookmarkNode, nodesWellFormed ns = true →
      (traverseBookmarksTree ns).2 = specFlattenFolders ns := by
  intro ns
  induction ns using traverseBookmarksTree.induct with
  | case1 => simp [traverseBookmarksTree, specFlattenFolders]
  | case2 i t u p cs rest ih1 ih2 =>
      intro h
      have h3 : truthyStr u = false ∧ nodesWellFormed cs = true
          ∧ nodesWellFormed rest = true := by
        simpa [nodesWellFormed, Bool.and_eq_true, Bool.not_eq_true'] using h
      simp [traverseBookmarksTree, specFlattenFolders, ih1 h3.2.1, ih2 h3.2.2,
        collectBookmarks_eq_map_leaves cs h3.2.1]
  | case3 i t u p rest ih =>
      intro h
      have hr : nodesWellFormed rest = true := by simpa [nodesWellFormed] using h
      simp [traverseBookmarksTree, specFlattenFolders, ih hr]

/-- C3 witness: the folder flattening at the concrete demo forest. -/
theorem c3_folder_children_are_leaf_descendants_witness :
    (traverseBookmarksTree demoForest).2 = specFlattenFolders demoForest :=
  c3_folder_children_are_leaf_descendants demoForest (by
    simp [nodesWellFormed, demoForest, demoRoot, demoLeafA, demoLeafB, demoWork,
      truthyStr])

/-- C4: no emitted folder has a reserved root id or an empty title, yet a
reserved root's subtree is traversed exactly as its children list, so the
folders and bookmarks below it all appear in the output. -/
theorem c4_reserved_roots_filtered (ns : List BookmarkNode) (F : FlatFolder)
    (hF : F ∈ (traverseBookmarksTree ns).2)
    (root : BookmarkNode) (cs : List BookmarkNode)
    (hcs : root.children = some cs) (hres : root.id ∈ reservedRootIds) :
    (F.id ∉ reservedRootIds ∧ F.title ≠ "")
    ∧ traverseBookmarksTree [root] = traverseBookmarksTree cs := by
  refine ⟨traverse_folders_not_reserved ns F hF, ?_⟩
  obtain ⟨ri, rt, ru, rp, rc⟩ := root
  simp only [BookmarkNode.children] at hcs
  subst hcs
  simp only [BookmarkNode.id] at hres
  simp [traverseBookmarksTree, hres]

/-- C4 witness: the demo forest's emitted folder is unreserved and titled,
and the reserved demo root traverses to its children's traversal. -/
theorem c4_reserved_roots_filtered_witness :
    (demoWorkFolder.id ∉ reservedRootIds ∧ demoWorkFolder.title ≠ "")
    ∧ traverseBookmarksTree [demoRoot] = traverseBookmarksTree [demoLeafA, demoWork] :=
  c4_reserved_roots_filtered demoForest demoWorkFolder
    (by
      simp +decide [traverseBookmarksTree, collectBookmarksFromFolder, demoForest,
        demoRoot, demoLeafA, demoLeafB, demoWork, truthyStr, reservedRootIds,
        demoWorkFolder, demoFlatB])
    demoRoot [demoLeafA, demoWork] rfl (by decide)

/-- C8: after `loadChromeBookmarks` the folder list is sorted by title under
the comparator (given transitive and total), and the sort is stable: the
folders carrying any fixed title keep their traversal order. -/
theorem c8_folders_sorted_stable (lc : String → String → Bool)
    (htrans : ∀ a b c : String, lc a b = true → lc b c = true → lc a c = true)
    (htotal : ∀ a b : String, (lc a b || lc b a) = true)
    (ns : List BookmarkNode) :
    ((loadChromeBookmarks lc ns).2).Pairwise (fun f g => lc f.title g.title = true)
    ∧ ∀ t : String,
        (loadChromeBookmarks lc ns).2.filter (fun f => f.title == t)
          = (traverseBookmarksTree ns).2.filter (fun f => f.title == t) := by
  constructor
  · have h := @List.sorted_mergeSort FlatFolder (fun f g => lc f.title g.title)
      (fun a b c hab hbc => htrans _ _ _ hab hbc)
      (fun a b => htotal _ _) (traverseBookmarksTree ns).2
    simpa [loadChromeBookmarks, sortFoldersByTitle] using h
  · intro t
    have hpair : ((traverseBookmarksTree ns).2.filter (fun f => f.title == t)).Pairwise
        (fun a b : FlatFolder => lc a.title b.title = true) := by
      apply pairwise_filter_of_all
      intro a b ha hb
      have ha2 : a.title = t := by simpa using ha
      have hb2 : b.title = t := by simpa using hb
      rw [ha2, hb2]
      have h3 := htotal t t
      simpa [Bool.or_self] using h3
    have hsub : List.Sublist
        ((traverseBookmarksTree ns).2.filter (fun f => f.title == t))
        (((traverseBookmarksTree ns).2).mergeSort (fun f g => lc f.title g.title)) :=
      List.sublist_mergeSort
        (fun (a b c : FlatFolder) hab hbc => htrans a.title b.title c.title hab hbc)
        (fun (a b : FlatFolder) => htotal a.title b.title)
        hpair (List.filter_sublist _)
    have hpp : (fun a : FlatFolder => (a.title == t) && (a.title == t))
        = (fun a : FlatFolder => a.title == t) := by
      funext a
      exact Bool.and_self _
    have hsub2 : List.Sublist
        ((traverseBookmarksTree ns).2.filter (fun f => f.title == t))
        ((((traverseBookmarksTree ns).2).mergeSort
          (fun f g => lc f.title g.title)).filter (fun f => f.title == t)) := by
      have h4 := hsub.filter (fun f => f.title == t)
      rwa [List.filter_filter, hpp] at h4
    have hperm : List.Perm
        ((((traverseBookmarksTree ns).2).mergeSort
          (fun f g => lc f.title g.title)).filter (fun f => f.title == t))
        ((traverseBookmarksTree ns).2.filter (fun f => f.title == t)) :=
      (List.mergeSort_perm _ _).filter _
    have heq := hsub2.eq_of_length (hperm.length_eq.symm)
    simpa [loadChromeBookmarks, sortFoldersByTitle] using heq.symm

/-- The comparator used in the C8 witness: ordinary string order. -/
def demoLC : String → String → Bool := fun a b => decide (a ≤ b)

/-- C8 witness: sortedness and stability at the concrete demo forest. -/
theorem c8_folders_sorted_stable_witness :
    ((loadChromeBookmarks demoLC demoForest).2).Pairwise
      (fun f g => demoLC f.title g.title = true)
    ∧ (loadChromeBookmarks demoLC demoForest).2.filter (fun f => f.title == "Work")
        = (traverseBookmarksTree demoForest).2.filter (fun f => f.title == "Work") := by
  have h := c8_folders_sorted_stable demoLC
    (fun a b c hab hbc => by
      simp only [demoLC, decide_eq_true_eq] at hab hbc ⊢
      exact le_trans hab hbc)
    (fun a b => by
      simp only [demoLC, Bool.or_eq_true, decide_eq_true_eq]
      exact le_total a b)
    demoForest
  exact ⟨h.1, h.2 "Work"⟩

end VisualBookmarks

